import Mathlib

/-!
Verification of the browser-resident controller of the
GenAI_Banking_Document_Classification repository.

The repository ships two variants of the front-end controller script:
`app/static/app.js` (here embedded under the namespace `AppJs`) and a
second main-page script together with a document-detail script (embedded
at top level and under `DetailJs`).  Functions that are textually
identical in the variants are embedded once, at top level.

JavaScript strings are modelled as Lean `String`/`List Char`; the few
platform primitives the scripts use (`String.prototype.trim`,
`toUpperCase`, `toLowerCase`, regex tests, `JSON.parse`/`stringify`)
are embedded at the character level, faithful to their ECMAScript
semantics on the inputs this application produces; each such embedding
carries a comment stating its scope.
-/

/-! ## Data model -/

/-- One element of the `recentDocuments` sequence, as built in
`saveToRecent`: `{id, category, urgency, timestamp}`, all strings
(`timestamp` is the ISO string produced at record time). -/
structure RecentDocumentEntry where
  id : String
  category : String
  urgency : String
  timestamp : String
deriving DecidableEq

/-- A metadata value as the scripts see it: either absent
(`null`/`undefined`) or a string.  The scripts test it with JavaScript
truthiness, under which the empty string also counts as absent. -/
inductive MetaVal where
  | absent
  | str (s : String)
deriving DecidableEq

/-- JavaScript truthiness of a `MetaVal` (`if (value)`). -/
def MetaVal.truthy : MetaVal → Bool
  | .absent => false
  | .str s => s ≠ ""

/-- The string interpolated for a metadata value (`${value}`); only used
on truthy values. -/
def MetaVal.asString : MetaVal → String
  | .absent => ""
  | .str s => s

/-- The response payload of `POST /process-document`, restricted to the
fields the embedded functions read.  `metadata` and `alerts` are
`Option` because the scripts null-check them (`if (result.metadata)`,
`if (result.alerts && ...)`); metadata keys keep their object insertion
order (`Object.entries`). -/
structure ProcessResult where
  document_id : String
  category : String
  urgency : String
  department : String
  requires_immediate_attention : Bool
  metadata : Option (List (String × MetaVal))
  alerts : Option (List String)
deriving DecidableEq

/-- One chat message `{role, content}`. -/
structure ChatMessage where
  role : String
  content : String
deriving DecidableEq

/-- The fields of a DOM `File` object read by `handleFile`:
`name`, `type` (declared media type) and `size` in bytes. -/
structure JsFile where
  name : String
  type : String
  size : Nat
deriving DecidableEq

/-! ## JavaScript string primitives (character-level embeddings) -/

/-- Whitespace for `String.prototype.trim`; the scripts only ever trim
user input read from text fields, so the common ASCII whitespace
characters suffice. -/
def jsWhitespace (c : Char) : Bool :=
  c = ' ' || c = '\t' || c = '\n' || c = '\r' || c = '\x0c' || c = '\x0b'

/-- `String.prototype.trim`: strip whitespace from both ends. -/
def jsTrim (s : String) : String :=
  String.mk (((s.data.dropWhile jsWhitespace).reverse.dropWhile jsWhitespace).reverse)

/-- `String.prototype.toUpperCase`, character by character.  The scripts
apply it to ASCII identifiers (`urgency`, category keys), where the
simple per-character uppercase map agrees with ECMAScript. -/
def jsToUpperCase (s : String) : String :=
  String.mk (s.data.map Char.toUpper)

/-- `String.prototype.toLowerCase`, character by character (used to model
the case-insensitive `/i` regex flag on ASCII file extensions). -/
def jsToLowerCase (s : String) : String :=
  String.mk (s.data.map Char.toLower)

/-! ## Formatting helpers (`formatCategory`, `formatLabel`, urgency badge)

`formatCategory`/`formatLabel` are
`s.replace(/_/g,' ').split(' ').map(w => w.charAt(0).toUpperCase() + w.slice(1)).join(' ')`,
identical in both script variants.  They are embedded on `List Char`. -/

/-- `replace(/_/g, ' ')` on a single character. -/
def usToSpace (c : Char) : Char :=
  if c = '_' then ' ' else c

/-- `split(' ')`: split at every space, keeping empty pieces, as in
ECMAScript (`"".split(' ')` is `[""]`). -/
def splitSpace : List Char → List (List Char)
  | [] => [[]]
  | c :: rest =>
    if c = ' ' then [] :: splitSpace rest
    else
      match splitSpace rest with
      | [] => [[c]]
      | w :: ws => (c :: w) :: ws

/-- `join(sep)` over word lists. -/
def joinWords (sep : Char) : List (List Char) → List Char
  | [] => []
  | [w] => w
  | w :: ws => w ++ sep :: joinWords sep ws

/-- `w.charAt(0).toUpperCase() + w.slice(1)` (on the empty word both
halves are empty). -/
def capWord : List Char → List Char
  | [] => []
  | c :: rest => c.toUpper :: rest

/-- The category/label transform on character lists. -/
def formatCategoryL (l : List Char) : List Char :=
  joinWords ' ' ((splitSpace (l.map usToSpace)).map capWord)

/-- `formatCategory` from the main-page script (identical in
`app/static/app.js`). -/
def formatCategory (s : String) : String :=
  String.mk (formatCategoryL s.data)

/-- `formatLabel`, textually the same transform as `formatCategory`. -/
def formatLabel (s : String) : String :=
  String.mk (formatCategoryL s.data)

/-- The urgency badge text set by `displayResults`:
`result.urgency.toUpperCase()` (same line in both variants). -/
def displayUrgencyText (u : String) : String :=
  jsToUpperCase u

/-! ## Input validation (`handleFile`, identical in both variants) -/

/-- The media-type allow-list `validTypes`. -/
def validTypes : List String :=
  ["application/pdf", "image/jpeg", "image/jpg", "image/png", "text/plain"]

/-- `file.name.match(/\.(pdf|jpg|jpeg|png|txt)$/i)`: the lowercased name
ends with a dot followed by one of the listed extensions. -/
def extMatches (n : String) : Bool :=
  ["pdf", "jpg", "jpeg", "png", "txt"].any fun e =>
    List.isSuffixOf ('.' :: e.data) (jsToLowerCase n).data

/-- Outcome of the two validation checks in `handleFile`. -/
inductive FileVerdict where
  | rejectedType
  | rejectedSize
  | accepted
deriving DecidableEq

/-- The validation logic of `handleFile`: reject unless the declared
type is allow-listed or the extension matches, then reject sizes above
`10 * 1024 * 1024` bytes; otherwise accept. -/
def fileVerdict (f : JsFile) : FileVerdict :=
  if ¬ (validTypes.contains f.type) ∧ ¬ (extMatches f.name = true) then .rejectedType
  else if 10 * 1024 * 1024 < f.size then .rejectedSize
  else .accepted

/-- State effect of `handleFile` on `currentFile`: a rejected file
returns early (toast only), leaving `currentFile` unchanged; an accepted
file is staged (`currentFile = file`). -/
def handleFile (prev : Option JsFile) (f : JsFile) : Option JsFile :=
  match fileVerdict f with
  | .accepted => some f
  | _ => prev

/-- The file attached to the `POST /process-document` request by
`handleUpload`: it posts `currentFile`, and returns without any network
call when `currentFile` is null (`if (!currentFile) return`). -/
def uploadRequest (currentFile : Option JsFile) : Option JsFile :=
  currentFile

/-! ## Result rendering projections (`displayResults`) -/

/-- One rendered metadata row: either a value row or the distinguishable
missing-value row (`<span class="missing-value">⚠️ Not found</span>`). -/
inductive MetaRow where
  | present (label : String) (value : String)
  | missing (label : String)
deriving DecidableEq

/-- Metadata rows produced by `displayResults` in the main-page script:
for each `[key, value]` of `Object.entries(result.metadata)`, a value
row when `value` is truthy, otherwise a `missing` row — never a skip. -/
def metadataRows (m : List (String × MetaVal)) : List MetaRow :=
  m.map fun kv =>
    if kv.2.truthy then .present (formatLabel kv.1) kv.2.asString
    else .missing (formatLabel kv.1)

/-- The `customerInfo` rows for a whole result (`if (result.metadata)`
guard included). -/
def displayMetadataRows (r : ProcessResult) : List MetaRow :=
  match r.metadata with
  | none => []
  | some m => metadataRows m

/-- Toasts emitted for `result.alerts` by `displayResults` in the
main-page script: `result.alerts.forEach(a => showToast(a, 'warning'))`
behind the `if (result.alerts && result.alerts.length > 0)` guard.
Each toast is (message, type). -/
def alertToasts (r : ProcessResult) : List (String × String) :=
  match r.alerts with
  | none => []
  | some l => if 0 < l.length then l.map (fun a => (a, "warning")) else []

namespace AppJs

/-- Metadata rows produced by `displayResults` in `app/static/app.js`:
the loop has no else-branch, so entries whose value is not truthy are
skipped entirely. -/
def metadataRows (m : List (String × MetaVal)) : List MetaRow :=
  m.filterMap fun kv =>
    if kv.2.truthy then some (.present (formatLabel kv.1) kv.2.asString)
    else none

/-- The `customerInfo` rows for a whole result in `app/static/app.js`. -/
def displayMetadataRows (r : ProcessResult) : List MetaRow :=
  match r.metadata with
  | none => []
  | some m => AppJs.metadataRows m

/-- Toasts emitted for `result.alerts` by `displayResults` in
`app/static/app.js`: that variant's `displayResults` contains no alerts
handling at all, so no toast is ever emitted for them. -/
def alertToasts (_r : ProcessResult) : List (String × String) :=
  []

end AppJs

/-! ## Chat transcript handling (`handleChat`, `sendMessage`) -/

/-- Effect of one `handleChat` turn (main-page script) on the context
transcript `mainChatHistory`.  `outcome` is the round-trip result:
`Except.error ()` covers a transport fault, a non-ok response and a
body-parse failure (all reach the same `catch`); `Except.ok resp` is a
successful response body `{response: resp}`.  On empty trimmed input the
function returns before any request.  Only on success are the user and
assistant messages pushed onto the transcript. -/
def handleChat (history : List ChatMessage) (input : String)
    (outcome : Except Unit String) : List ChatMessage :=
  let query := jsTrim input
  if query = "" then history
  else
    match outcome with
    | .error _ => history
    | .ok resp => history ++ [⟨"user", query⟩, ⟨"assistant", resp⟩]

namespace DetailJs

/-- Effect of one `sendMessage` turn (document-detail script) on the
document-scoped transcript `chatHistory`; the history update is the same
push-both-only-on-success discipline as `handleChat` (the request
additionally carries `document_id`, which does not affect the
transcript). -/
def sendMessage (history : List ChatMessage) (input : String)
    (outcome : Except Unit String) : List ChatMessage :=
  let message := jsTrim input
  if message = "" then history
  else
    match outcome with
    | .error _ => history
    | .ok resp => history ++ [⟨"user", message⟩, ⟨"assistant", resp⟩]

end DetailJs

/-! ## JSON codec for the recent-document store

`saveToRecent` persists `JSON.stringify(recentDocuments)` and
`loadRecentDocuments` reads it back through `JSON.parse`.  The
serializer below is `JSON.stringify` on exactly the values this
application stores (arrays of objects with the four string fields in
insertion order `id, category, urgency, timestamp`; no whitespace;
standard string escaping).  The parser models `JSON.parse` on the
sublanguage this application itself writes; any string outside that
sublanguage is modelled as a parse failure, and every input the
theorems below evaluate it on is one where `JSON.parse` gives the same
verdict. -/

/-- Lowercase hex digit, as emitted by `JSON.stringify` in
`\u00..` escapes. -/
def hexDigitChar (n : Nat) : Char :=
  if n < 10 then Char.ofNat (48 + n) else Char.ofNat (87 + n)

/-- `JSON.stringify` escaping of one string character: `"` and `\` get
backslash escapes, the named control characters get their short
escapes, the remaining control characters get `\u00..`, and everything
else is emitted verbatim. -/
def escChar (c : Char) : List Char :=
  if c = '"' then ['\\', '"']
  else if c = '\\' then ['\\', '\\']
  else if c = '\x08' then ['\\', 'b']
  else if c = '\t' then ['\\', 't']
  else if c = '\n' then ['\\', 'n']
  else if c = '\x0c' then ['\\', 'f']
  else if c = '\r' then ['\\', 'r']
  else if c.toNat < 32 then
    ['\\', 'u', '0', '0', hexDigitChar (c.toNat / 16), hexDigitChar (c.toNat % 16)]
  else [c]

/-- Escape a whole character list. -/
def escList : List Char → List Char
  | [] => []
  | c :: rest => escChar c ++ escList rest

/-- A JSON string literal for `s`. -/
def quoteJson (s : String) : List Char :=
  '"' :: escList s.data ++ ['"']

/-- The serialized object opener plus first key: `\x7b"id":`. -/
def tokObjOpen : List Char := ("\x7b\"id\":").data

/-- The serialized second key: `,"category":`. -/
def tokCat : List Char := (",\"category\":").data

/-- The serialized third key: `,"urgency":`. -/
def tokUrg : List Char := (",\"urgency\":").data

/-- The serialized fourth key: `,"timestamp":`. -/
def tokTs : List Char := (",\"timestamp\":").data

/-- The serialized object closer `\x7d`. -/
def tokObjClose : List Char := ("\x7d").data

/-- `JSON.stringify` of one recent-document entry. -/
def stringifyEntry (e : RecentDocumentEntry) : List Char :=
  tokObjOpen ++ quoteJson e.id ++ tokCat ++ quoteJson e.category ++
    tokUrg ++ quoteJson e.urgency ++ tokTs ++ quoteJson e.timestamp ++ tokObjClose

/-- Comma-separated serialization of the entries. -/
def stringifyItems : List RecentDocumentEntry → List Char
  | [] => []
  | [e] => stringifyEntry e
  | e :: rest => stringifyEntry e ++ ',' :: stringifyItems rest

/-- `JSON.stringify(recentDocuments)`. -/
def stringifyRecent (l : List RecentDocumentEntry) : List Char :=
  '[' :: stringifyItems l ++ [']']

/-- Value of a hex digit, either case. -/
def hexVal (c : Char) : Option Nat :=
  if '0' ≤ c ∧ c ≤ '9' then some (c.toNat - 48)
  else if 'a' ≤ c ∧ c ≤ 'f' then some (c.toNat - 87)
  else if 'A' ≤ c ∧ c ≤ 'F' then some (c.toNat - 55)
  else none

/-- JSON short escapes after a backslash. -/
def unescShort (c : Char) : Option Char :=
  if c = '"' then some '"'
  else if c = '\\' then some '\\'
  else if c = '/' then some '/'
  else if c = 'b' then some '\x08'
  else if c = 'f' then some '\x0c'
  else if c = 'n' then some '\n'
  else if c = 'r' then some '\r'
  else if c = 't' then some '\t'
  else none

/-- Read four hex digits, returning their value and the rest. -/
def parseHex4 : List Char → Option (Nat × List Char)
  | h1 :: h2 :: h3 :: h4 :: rest3 =>
    (hexVal h1).bind fun a =>
    (hexVal h2).bind fun b =>
    (hexVal h3).bind fun a2 =>
    (hexVal h4).bind fun b2 =>
    some (((a * 16 + b) * 16 + a2) * 16 + b2, rest3)
  | _ => none

/-- Reading four hex digits consumes exactly four characters. -/
theorem parseHex4_len (l : List Char) (nr : Nat × List Char)
    (h : parseHex4 l = some nr) : nr.2.length + 4 = l.length := by
  rcases l with _ | ⟨x1, _ | ⟨x2, _ | ⟨x3, _ | ⟨x4, rest3⟩⟩⟩⟩
  · exact Option.noConfusion h
  · exact Option.noConfusion h
  · exact Option.noConfusion h
  · exact Option.noConfusion h
  · simp only [parseHex4, Option.bind_eq_some, Option.some.injEq] at h
    obtain ⟨a, _, b, _, a2, _, b2, _, hnr⟩ := h
    subst hnr
    simp

/-- Decode one escape sequence (the input starts right after the
backslash); returns the decoded character and the remaining input. -/
def parseEsc : List Char → Option (Char × List Char)
  | [] => none
  | e :: rest2 =>
    if e = 'u' then
      (parseHex4 rest2).map fun nr => (Char.ofNat nr.1, nr.2)
    else
      (unescShort e).map fun u => (u, rest2)

/-- Decoding an escape strictly consumes input. -/
theorem parseEsc_len (l : List Char) (u : Char) (r : List Char)
    (h : parseEsc l = some (u, r)) : r.length < l.length := by
  match l with
  | [] => exact Option.noConfusion h
  | e :: rest2 =>
    rw [parseEsc] at h
    by_cases hu : e = 'u'
    · rw [if_pos hu, Option.map_eq_some'] at h
      obtain ⟨nr, hnr, hr⟩ := h
      have := parseHex4_len rest2 nr hnr
      simp only [Prod.mk.injEq] at hr
      obtain ⟨_, rfl⟩ := hr
      simp only [List.length_cons]
      omega
    · rw [if_neg hu, Option.map_eq_some'] at h
      obtain ⟨u2, _, hr⟩ := h
      simp only [Prod.mk.injEq] at hr
      obtain ⟨_, rfl⟩ := hr
      simp

/-- Parse the body of a JSON string literal (after the opening quote) up
to and including the closing quote; returns the decoded characters and
the remaining input.  Raw control characters are rejected, as in
`JSON.parse`.  (`\u` escapes are decoded to the scalar value; the
serializer only emits `\u00..`, so surrogate pairs never arise here.) -/
def parseStringBody : List Char → Option (List Char × List Char)
  | [] => none
  | c :: rest =>
    if c = '"' then some ([], rest)
    else if c = '\\' then
      match hesc : parseEsc rest with
      | some ur =>
        (parseStringBody ur.2).map fun p => (ur.1 :: p.1, p.2)
      | none => none
    else if c.toNat < 32 then none
    else (parseStringBody rest).map fun p => (c :: p.1, p.2)
termination_by l => l.length
decreasing_by
  · have := parseEsc_len rest ur.1 ur.2 (by rw [hesc])
    simp only [List.length_cons]
    omega
  · simp only [List.length_cons]
    omega

/-- Parse a JSON string literal including its opening quote. -/
def parseJString : List Char → Option (List Char × List Char)
  | [] => none
  | c :: rest => if c = '"' then parseStringBody rest else none

/-- Consume an expected literal token. -/
def stripTok : List Char → List Char → Option (List Char)
  | [], l => some l
  | t :: ts, c :: l => if c = t then stripTok ts l else none
  | _ :: _, [] => none

/-- Parse one serialized entry object. -/
def parseEntry (l : List Char) : Option (RecentDocumentEntry × List Char) :=
  (stripTok tokObjOpen l).bind fun l1 =>
  (parseJString l1).bind fun p1 =>
  (stripTok tokCat p1.2).bind fun l3 =>
  (parseJString l3).bind fun p2 =>
  (stripTok tokUrg p2.2).bind fun l5 =>
  (parseJString l5).bind fun p3 =>
  (stripTok tokTs p3.2).bind fun l7 =>
  (parseJString l7).bind fun p4 =>
  (stripTok tokObjClose p4.2).bind fun l9 =>
  some (⟨String.mk p1.1, String.mk p2.1, String.mk p3.1, String.mk p4.1⟩, l9)

/-- Consuming a token shortens the input by the token's length. -/
theorem stripTok_len : ∀ (ts l r : List Char), stripTok ts l = some r →
    r.length + ts.length = l.length := by
  intro ts
  induction ts with
  | nil =>
    intro l r h
    simp [stripTok] at h
    subst h
    simp
  | cons t ts ih =>
    intro l r h
    match l with
    | [] => simp [stripTok] at h
    | c :: l' =>
      rw [stripTok] at h
      split at h
      · have := ih l' r h
        simp only [List.length_cons]
        omega
      · exact absurd h (by simp)

/-- Parsing a string body consumes at least the closing quote. -/
theorem parseStringBody_len :
    ∀ (n : Nat) (l : List Char), l.length ≤ n →
      ∀ p, parseStringBody l = some p → p.2.length < l.length := by
  intro n
  induction n with
  | zero =>
    intro l hl p h
    match l with
    | [] => simp [parseStringBody] at h
    | c :: rest => simp at hl
  | succ n ih =>
    intro l hl p h
    match l with
    | [] => simp [parseStringBody] at h
    | c :: rest =>
      rw [parseStringBody] at h
      split at h
      · simp only [Option.some.injEq] at h
        subst h
        simp
      · split at h
        · split at h
          · rename_i ur hesc
            rw [Option.map_eq_some'] at h
            obtain ⟨q, hq, hpq⟩ := h
            have hur := parseEsc_len rest ur.1 ur.2 (by rw [hesc])
            have hlen : ur.2.length ≤ n := by
              simp only [List.length_cons] at hl
              omega
            have := ih ur.2 hlen q hq
            subst hpq
            simp only [List.length_cons]
            omega
          · exact absurd h (by simp)
        · split at h
          · exact absurd h (by simp)
          · rw [Option.map_eq_some'] at h
            obtain ⟨q, hq, hpq⟩ := h
            have hlen : rest.length ≤ n := by
              simp only [List.length_cons] at hl
              omega
            have := ih rest hlen q hq
            subst hpq
            simp only [List.length_cons]
            omega

/-- Parsing a string literal strictly consumes input. -/
theorem parseJString_len (l : List Char) (p : List Char × List Char)
    (h : parseJString l = some p) : p.2.length < l.length := by
  match l with
  | [] => exact absurd h (by simp [parseJString])
  | c :: rest =>
    rw [parseJString] at h
    split at h
    · have := parseStringBody_len rest.length rest le_rfl p h
      simp only [List.length_cons]
      omega
    · exact absurd h (by simp)

/-- Parsing one entry strictly consumes input. -/
theorem parseEntry_len (l : List Char) (e : RecentDocumentEntry)
    (r : List Char) (h : parseEntry l = some (e, r)) : r.length < l.length := by
  simp only [parseEntry, Option.bind_eq_some, Option.some.injEq, Prod.mk.injEq] at h
  obtain ⟨l1, h1, p1, hp1, l3, h3, p2, hp2, l5, h5, p3, hp3, l7, h7, p4, hp4, l9, h9, _, hr⟩ := h
  have e1 := stripTok_len _ _ _ h1
  have e2 := parseJString_len _ _ hp1
  have e3 := stripTok_len _ _ _ h3
  have e4 := parseJString_len _ _ hp2
  have e5 := stripTok_len _ _ _ h5
  have e6 := parseJString_len _ _ hp3
  have e7 := stripTok_len _ _ _ h7
  have e8 := parseJString_len _ _ hp4
  have e9 := stripTok_len _ _ _ h9
  subst hr
  omega

/-- Parse a nonempty comma-separated sequence of entry objects. -/
def parseItems (l : List Char) : Option (List RecentDocumentEntry × List Char) :=
  match he : parseEntry l with
  | none => none
  | some (e, r) =>
    match r with
    | ',' :: r2 =>
      match parseItems r2 with
      | some p => some (e :: p.1, p.2)
      | none => none
    | _ => some ([e], r)
termination_by l.length
decreasing_by
  have := parseEntry_len l e (',' :: r2) he
  simp only [List.length_cons] at this
  omega

/-- `JSON.parse` on the store's sublanguage: a (possibly empty) array of
entry objects, with nothing before or after it. -/
def parseRecent (l : List Char) : Option (List RecentDocumentEntry) :=
  match l with
  | [] => none
  | c :: rest =>
    if c = '[' then
      if rest = [']'] then some []
      else
        match parseItems rest with
        | some p => if p.2 = [']'] then some p.1 else none
        | none => none
    else none

/-! ## Recent-document store (`saveToRecent`, `loadRecentDocuments`)

These are identical in both script variants.  The globals
`recentDocuments` (in-memory sequence) and the durable
`localStorage.recentDocuments` record are modelled as an explicit
`StoreState`. -/

/-- The module state the store functions touch: the in-memory
`recentDocuments` array and the durable `localStorage` record
(`none` = key absent). -/
structure StoreState where
  recent : List RecentDocumentEntry
  stored : Option String
deriving DecidableEq

/-- The entry `saveToRecent` builds from a result:
`{id: result.document_id, category, urgency, timestamp: now}` where
`now` is `new Date().toISOString()`, taken here as a parameter. -/
def mkEntry (r : ProcessResult) (now : String) : RecentDocumentEntry :=
  ⟨r.document_id, r.category, r.urgency, now⟩

/-- The list update inside `saveToRecent`: `unshift` the new entry, then
`slice(0, 10)` when the length exceeds 10. -/
def saveToRecentList (recent : List RecentDocumentEntry)
    (e : RecentDocumentEntry) : List RecentDocumentEntry :=
  let l := e :: recent
  if 10 < l.length then l.take 10 else l

/-- `saveToRecent(result)`: update the in-memory sequence and persist
`JSON.stringify(recentDocuments)` to durable storage. -/
def saveToRecent (st : StoreState) (r : ProcessResult) (now : String) : StoreState :=
  let l := saveToRecentList st.recent (mkEntry r now)
  ⟨l, some (String.mk (stringifyRecent l))⟩

/-- `loadRecentDocuments()` as a function of the stored value.  The
`if (stored)` guard skips both an absent key and an empty string (both
falsy), leaving the initial empty sequence; otherwise
`JSON.parse(stored)` either yields the sequence or throws — the source
has no `try`/`catch` here, so a parse failure is an uncaught exception,
modelled as `Except.error ()`. -/
def loadRecentDocuments (stored : Option String) :
    Except Unit (List RecentDocumentEntry) :=
  match stored with
  | none => .ok []
  | some s =>
    if s = "" then .ok []
    else
      match parseRecent s.data with
      | some l => .ok l
      | none => .error ()

/-- Record a whole sequence of results (with their timestamps) into an
initially empty store, `saveToRecent` by `saveToRecent`. -/
def recordAll (rs : List (ProcessResult × String)) : StoreState :=
  rs.foldl (fun st pr => saveToRecent st pr.1 pr.2) ⟨[], none⟩

/-! ## Assistant message formatting (`formatMessageContent`)

`content.replace(/\*\*(.*?)\*\*/g, '<strong>$1</strong>').replace(/\n/g, '<br>')`,
identical in the main-page and document-detail scripts.  The first
regex is embedded as a left-to-right scan: at a `**`, the lazy `.*?`
takes the shortest run of non-line-terminator characters followed by
another `**` (ECMAScript `.` matches neither `\n`, `\r`, U+2028 nor
U+2029); if no such close exists the engine moves on by one
character.  The second pass replaces every `\n` with `<br>`. -/

/-- A line terminator, which `.` does not match. -/
def lineTerm (c : Char) : Bool :=
  c = '\n' || c = '\r' || c = '\u2028' || c = '\u2029'

/-- Find the lazy match of `(.*?)\*\*`: the shortest prefix of
line-terminator-free characters followed by `**`; returns that prefix
and the input after the closing `**`. -/
def findClose : List Char → Option (List Char × List Char)
  | [] => none
  | [_] => none
  | c1 :: c2 :: rest =>
    if c1 = '*' ∧ c2 = '*' then some ([], rest)
    else if lineTerm c1 then none
    else (findClose (c2 :: rest)).map fun p => (c1 :: p.1, p.2)

/-- A successful close consumes at least the two closing stars. -/
theorem findClose_len : ∀ (l : List Char) (p : List Char × List Char),
    findClose l = some p → p.2.length + 2 ≤ l.length := by
  intro l
  induction l with
  | nil => intro p h; exact Option.noConfusion h
  | cons c rest ih =>
    intro p h
    match rest with
    | [] => exact Option.noConfusion h
    | c2 :: rest2 =>
      rw [findClose] at h
      split at h
      · simp only [Option.some.injEq] at h
        subst h
        simp only [List.length_cons]
        omega
      · split at h
        · exact Option.noConfusion h
        · rw [Option.map_eq_some'] at h
          obtain ⟨q, hq, hpq⟩ := h
          have := ih q hq
          subst hpq
          simp only [List.length_cons] at this ⊢
          omega

/-- The replacement text `<strong>`. -/
def strongOpen : List Char := ("<strong>").data

/-- The replacement text `</strong>`. -/
def strongClose : List Char := ("</strong>").data

/-- The global bold-replacement pass
(`replace(/\*\*(.*?)\*\*/g, '<strong>$1</strong>')`). -/
def replaceBold : List Char → List Char
  | [] => []
  | [c] => [c]
  | c1 :: c2 :: rest =>
    if c1 = '*' ∧ c2 = '*' then
      match hfc : findClose rest with
      | some p => strongOpen ++ p.1 ++ strongClose ++ replaceBold p.2
      | none => c1 :: replaceBold (c2 :: rest)
    else c1 :: replaceBold (c2 :: rest)
termination_by l => l.length
decreasing_by
  · have := findClose_len rest p (by rw [hfc])
    simp only [List.length_cons]
    omega
  · simp only [List.length_cons]
    omega
  · simp only [List.length_cons]
    omega

/-- The newline pass (`replace(/\n/g, '<br>')`). -/
def replaceNewlines : List Char → List Char
  | [] => []
  | c :: rest =>
    (if c = '\n' then ("<br>").data else [c]) ++ replaceNewlines rest

/-- `formatMessageContent`, identical in both scripts that define it. -/
def formatMessageContent (content : String) : String :=
  String.mk (replaceNewlines (replaceBold content.data))

/-- A character that neither pass can touch and that cannot take part
in a delimiter: not a star and not a line terminator. -/
def inlineSafe (c : Char) : Bool :=
  ¬ (c = '*' || lineTerm c)

/-! ## `formatFileSize`

`Math.floor(Math.log(bytes) / Math.log(1024))` is the real-valued
base-1024 logarithm floored, i.e. `Nat.log 1024 bytes` for positive
integer input (the IEEE-754 evaluation is modelled exactly over the
reals).  `Math.round(bytes / 1024**i * 100) / 100` is modelled with
exact rational arithmetic; the final number-to-string conversion
renders up to two fractional digits without trailing zeros, matching
ECMAScript number formatting for these magnitudes. -/

/-- The unit index `i = Math.floor(Math.log(bytes) / Math.log(k))`. -/
def fileSizeIdx (bytes : Nat) : Nat :=
  Nat.log 1024 bytes

/-- The `sizes` array. -/
def sizesArr : List String := ["Bytes", "KB", "MB"]

/-- Decimal rendering of `Math.round(bytes / 1024^i * 100) / 100`. -/
def fmtNum (bytes i : Nat) : String :=
  let p := 1024 ^ i
  let r := (200 * bytes + p) / (2 * p)
  let ip := r / 100
  let fr := r % 100
  if fr = 0 then toString ip
  else if fr % 10 = 0 then toString ip ++ "." ++ toString (fr / 10)
  else if fr < 10 then toString ip ++ ".0" ++ toString fr
  else toString ip ++ "." ++ toString fr

/-- `formatFileSize` (identical in both variants): `'0 Bytes'` for zero,
otherwise the rounded value followed by `' '` and `sizes[i]` (an
out-of-range index would interpolate as `"undefined"`). -/
def formatFileSize (bytes : Nat) : String :=
  if bytes = 0 then "0 Bytes"
  else fmtNum bytes (fileSizeIdx bytes) ++ " " ++
    sizesArr.getD (fileSizeIdx bytes) "undefined"


/-! ## Helper lemmas -/

/-- `contains` on the allow-list agrees with membership. -/
theorem validTypes_contains_iff (t : String) :
    validTypes.contains t = true ↔ t ∈ validTypes :=
  List.elem_iff

/-! ## Claim C1 -/

/-- C1, counterexample: a stored string that is not parsable JSON (an
unterminated object opener, which `JSON.parse` rejects) makes
`loadRecentDocuments` raise (the uncaught `JSON.parse` exception)
instead of leaving the sequence empty without error. -/
theorem loadRecentDocuments_malformed_cex :
    loadRecentDocuments (some "\x7b") = Except.error () := rfl

/-- C1 (amended): when the stored value is absent (or the falsy empty
string) the sequence is left empty and no error is raised; but when a
non-empty stored string is not parsable, `loadRecentDocuments`
propagates the `JSON.parse` exception rather than treating the data as
empty. -/
theorem loadRecentDocuments_behavior :
    loadRecentDocuments none = Except.ok []
    ∧ loadRecentDocuments (some "") = Except.ok []
    ∧ ∀ s : String, s ≠ "" → parseRecent s.data = none →
        loadRecentDocuments (some s) = Except.error () := by
  refine ⟨rfl, rfl, ?_⟩
  intro s hs hp
  simp [loadRecentDocuments, hs, hp]

/-- C1, witness: the amended theorem applied to the concrete non-JSON
stored string `"not json"`. -/
theorem loadRecentDocuments_behavior_witness :
    loadRecentDocuments (some "not json") = Except.error () :=
  loadRecentDocuments_behavior.2.2 "not json" (by decide) (by decide)

/-! ## Claim C3 -/

/-- C3: in both conversational scopes, a failed turn leaves the context
transcript unchanged, and a successful turn appends exactly the user
message followed by the assistant message (length grows by two). -/
theorem chat_turn_transcript (h : List ChatMessage) (input : String)
    (hq : jsTrim input ≠ "") :
    (handleChat h input (Except.error ()) = h
      ∧ DetailJs.sendMessage h input (Except.error ()) = h)
    ∧ ∀ r : String,
        handleChat h input (Except.ok r) =
          h ++ [⟨"user", jsTrim input⟩, ⟨"assistant", r⟩]
        ∧ (handleChat h input (Except.ok r)).length = h.length + 2
        ∧ DetailJs.sendMessage h input (Except.ok r) =
            h ++ [⟨"user", jsTrim input⟩, ⟨"assistant", r⟩]
        ∧ (DetailJs.sendMessage h input (Except.ok r)).length = h.length + 2 := by
  constructor
  · exact ⟨by simp [handleChat, hq], by simp [DetailJs.sendMessage, hq]⟩
  · intro r
    refine ⟨by simp [handleChat, hq], ?_, by simp [DetailJs.sendMessage, hq], ?_⟩
    · simp [handleChat, hq]
    · simp [DetailJs.sendMessage, hq]

/-- C3, witness: a concrete failed and successful turn in the global
scope, from the empty transcript. -/
theorem chat_turn_transcript_witness :
    handleChat [] "Wie?" (Except.ok "Hallo") =
      [⟨"user", "Wie?"⟩, ⟨"assistant", "Hallo"⟩]
    ∧ handleChat [] "Wie?" (Except.error ()) = [] := by
  have h := chat_turn_transcript [] "Wie?" (by decide)
  refine ⟨?_, h.1.1⟩
  have h2 := (h.2 "Hallo").1
  rw [show jsTrim "Wie?" = "Wie?" from by decide] at h2
  simpa using h2

/-! ## Claim C4 -/

/-- C4: `handleFile` accepts a file iff its declared media type is on
the allow-list or its (case-insensitive) filename extension is, and its
size is at most 10 MiB; a rejected file is never staged, and with
nothing staged `handleUpload` makes no network call. -/
theorem handleFile_accept_iff (f : JsFile) :
    (fileVerdict f = .accepted ↔
      ((f.type ∈ ["application/pdf", "image/jpeg", "image/jpg", "image/png", "text/plain"]
          ∨ extMatches f.name = true)
        ∧ f.size ≤ 10 * 1024 * 1024))
    ∧ (fileVerdict f ≠ .accepted →
        (∀ prev, handleFile prev f = prev)
        ∧ uploadRequest (handleFile none f) = none) := by
  have hmem : (validTypes.contains f.type = true) ↔
      f.type ∈ ["application/pdf", "image/jpeg", "image/jpg", "image/png", "text/plain"] :=
    validTypes_contains_iff f.type
  constructor
  · unfold fileVerdict
    split
    · rename_i hrej
      constructor
      · intro hc; exact FileVerdict.noConfusion hc
      · rintro ⟨hor, -⟩
        rcases hor with ho | ho
        · exact absurd (hmem.mpr ho) hrej.1
        · exact absurd ho hrej.2
    · rename_i hrej
      split
      · rename_i hsz
        constructor
        · intro hc; exact FileVerdict.noConfusion hc
        · rintro ⟨-, hle⟩; omega
      · rename_i hsz
        constructor
        · intro _
          refine ⟨?_, by omega⟩
          by_cases hc : validTypes.contains f.type = true
          · exact Or.inl (hmem.mp hc)
          · right
            by_cases he : extMatches f.name = true
            · exact he
            · exact absurd ⟨hc, he⟩ hrej
        · intro _; rfl
  · intro hne
    constructor
    · intro prev
      unfold handleFile
      cases hv : fileVerdict f
      · rfl
      · rfl
      · exact absurd hv hne
    · unfold uploadRequest handleFile
      cases hv : fileVerdict f
      · rfl
      · rfl
      · exact absurd hv hne

/-- C4, witness: a 5-byte zip file is rejected by type, so nothing is
staged and no upload request carries a file. -/
theorem handleFile_accept_iff_witness :
    handleFile none ⟨"x.exe", "application/zip", 5⟩ = none :=
  (((handleFile_accept_iff ⟨"x.exe", "application/zip", 5⟩).2 (by decide)).1) none

/-! ## Claim C6 -/

/-- C6, counterexample: `displayResults` in `app/static/app.js` surfaces
no notification at all for a result whose alerts are `[a1, a2]` (the
claim requires both, in order). -/
theorem appJs_alertToasts_cex :
    AppJs.alertToasts ⟨"doc-1", "complaints", "high", "Support", false, none,
      some ["a1", "a2"]⟩ = [] := rfl

/-- C6 (amended): in the main-page script every entry of a non-empty
`alerts` array is surfaced as a warning toast, in array order; the
`app/static/app.js` variant of `displayResults` surfaces none of them. -/
theorem alertToasts_in_order (r : ProcessResult) (l : List String)
    (hl : r.alerts = some l) :
    alertToasts r = l.map (fun a => (a, "warning"))
    ∧ AppJs.alertToasts r = [] := by
  refine ⟨?_, rfl⟩
  rcases l with _ | ⟨a, t⟩
  · simp [alertToasts, hl]
  · simp [alertToasts, hl]

/-- C6, witness: the amended theorem at a concrete result with two
alerts: both are surfaced, `a1` before `a2`. -/
theorem alertToasts_in_order_witness :
    alertToasts ⟨"doc-1", "complaints", "high", "Support", false, none,
      some ["a1", "a2"]⟩ = [("a1", "warning"), ("a2", "warning")] :=
  (alertToasts_in_order _ ["a1", "a2"] rfl).1

/-! ## Claim C2 -/

/-- C2, counterexample: for a result whose only metadata key has an
absent value, `displayResults` in `app/static/app.js` renders no row at
all — the key is skipped rather than shown with a missing indicator. -/
theorem appJs_metadataRows_cex :
    AppJs.displayMetadataRows ⟨"d1", "kyc_updates", "low", "KYC", false,
      some [("customer_id", MetaVal.absent)], none⟩ = [] := rfl

/-- C2 (amended): in the main-page script, `displayResults` renders one
row per declared metadata key, in declaration order: a value row when
the value is truthy and a distinguishable missing row otherwise; the
`app/static/app.js` variant instead skips keys with absent values. -/
theorem metadataRows_all_keys (r : ProcessResult) (m : List (String × MetaVal))
    (hm : r.metadata = some m) :
    (displayMetadataRows r).length = m.length
    ∧ ∀ i, i < m.length →
        ((m.getD i ("", MetaVal.absent)).2.truthy = true →
          (displayMetadataRows r).getD i (MetaRow.missing "") =
            MetaRow.present (formatLabel (m.getD i ("", MetaVal.absent)).1)
              ((m.getD i ("", MetaVal.absent)).2.asString))
        ∧ ((m.getD i ("", MetaVal.absent)).2.truthy = false →
          (displayMetadataRows r).getD i (MetaRow.missing "") =
            MetaRow.missing (formatLabel (m.getD i ("", MetaVal.absent)).1)) := by
  have hd : displayMetadataRows r = metadataRows m := by
    simp [displayMetadataRows, hm]
  constructor
  · rw [hd]
    simp [metadataRows]
  · intro i hi
    have h1 : m[i]? = some m[i] := List.getElem?_eq_getElem hi
    have hmd : m.getD i ("", MetaVal.absent) = m[i] := by
      rw [List.getD_eq_getElem?_getD, h1]
      rfl
    have hrow : (displayMetadataRows r).getD i (MetaRow.missing "") =
        (if (m[i]).2.truthy then
          MetaRow.present (formatLabel (m[i]).1) ((m[i]).2.asString)
        else MetaRow.missing (formatLabel (m[i]).1)) := by
      rw [hd, metadataRows, List.getD_eq_getElem?_getD, List.getElem?_map, h1]
      rfl
    rw [hmd, hrow]
    constructor
    · intro ht
      rw [if_pos ht]
    · intro ht
      rw [if_neg (by simp [ht])]

/-- C2, witness: the amended theorem at a result with one absent and one
present metadata value — the absent key still yields a (missing) row,
the present key yields its value row. -/
theorem metadataRows_all_keys_witness :
    (displayMetadataRows ⟨"d1", "kyc_updates", "low", "KYC", false,
        some [("customer_id", MetaVal.absent), ("account_number", MetaVal.str "DE89")],
        none⟩).getD 0 (MetaRow.missing "") = MetaRow.missing "Customer Id"
    ∧ (displayMetadataRows ⟨"d1", "kyc_updates", "low", "KYC", false,
        some [("customer_id", MetaVal.absent), ("account_number", MetaVal.str "DE89")],
        none⟩).getD 1 (MetaRow.missing "") = MetaRow.present "Account Number" "DE89" := by
  have h := metadataRows_all_keys
    ⟨"d1", "kyc_updates", "low", "KYC", false,
      some [("customer_id", MetaVal.absent), ("account_number", MetaVal.str "DE89")], none⟩
    [("customer_id", MetaVal.absent), ("account_number", MetaVal.str "DE89")] rfl
  constructor
  · have h0 := (h.2 0 (by decide)).2 (by decide)
    rw [h0]
    decide
  · have h1 := (h.2 1 (by decide)).1 (by decide)
    rw [h1]
    decide

/-! ## Claim C8 -/

/-- Mapping the separator replacement over an underscore-joined word
list turns it into the space-joined word list, when no word contains an
underscore. -/
theorem map_usToSpace_joinWords :
    ∀ ws : List (List Char), (∀ w ∈ ws, ∀ c ∈ w, c ≠ '_') →
      (joinWords '_' ws).map usToSpace = joinWords ' ' ws := by
  intro ws
  induction ws with
  | nil => intro _; rfl
  | cons w ws ih =>
    intro hok
    have hw : w.map usToSpace = w := by
      have h2 : w.map usToSpace = w.map id :=
        List.map_congr_left fun c hc => by simp [usToSpace, hok w (by simp) c hc]
      simpa using h2
    cases ws with
    | nil => simpa [joinWords] using hw
    | cons w2 ws2 =>
      have hrest := ih fun w' hw' => hok w' (by simp [hw'])
      simp only [joinWords, List.map_append, List.map_cons]
      rw [hw, hrest]
      simp [usToSpace]

/-- `splitSpace` never returns the empty list of pieces. -/
theorem splitSpace_ne_nil : ∀ l : List Char, splitSpace l ≠ [] := by
  intro l
  induction l with
  | nil => simp [splitSpace]
  | cons c rest ih =>
    rw [splitSpace]
    split
    · simp
    · split
      · simp
      · simp

/-- Splitting after a space-free prefix prepends it to the first
piece. -/
theorem splitSpace_append :
    ∀ (w l : List Char), (∀ c ∈ w, c ≠ ' ') →
      splitSpace (w ++ l) = (w ++ (splitSpace l).headI) :: (splitSpace l).tail := by
  intro w
  induction w with
  | nil =>
    intro l _
    rcases hs : splitSpace l with _ | ⟨p, ps⟩
    · exact absurd hs (splitSpace_ne_nil l)
    · simp [hs]
  | cons c w' ih =>
    intro l hok
    have hc : c ≠ ' ' := hok c (by simp)
    rw [List.cons_append, splitSpace, if_neg hc,
      ih l fun c' hc' => hok c' (by simp [hc'])]
    simp

/-- Splitting a space-joined nonempty list of space-free words recovers
the words. -/
theorem splitSpace_joinWords :
    ∀ ws : List (List Char), ws ≠ [] → (∀ w ∈ ws, ∀ c ∈ w, c ≠ ' ') →
      splitSpace (joinWords ' ' ws) = ws := by
  intro ws
  induction ws with
  | nil => intro h; exact absurd rfl h
  | cons w ws ih =>
    intro _ hok
    cases ws with
    | nil =>
      have := splitSpace_append w [] (hok w (by simp))
      simpa [joinWords, splitSpace] using this
    | cons w2 ws2 =>
      have hrest := ih (List.cons_ne_nil _ _) fun w' hw' => hok w' (by simp [hw'])
      rw [joinWords, splitSpace_append w (' ' :: joinWords ' ' (w2 :: ws2))
        (hok w (by simp))]
      rw [show splitSpace (' ' :: joinWords ' ' (w2 :: ws2)) =
        [] :: splitSpace (joinWords ' ' (w2 :: ws2)) from by rw [splitSpace]; simp]
      rw [hrest]
      simp
      exact List.cons_ne_nil _ _

/-- C8, counterexample: the urgency badge text for urgency `high` is the
fully upper-cased `HIGH`, which differs from the title-cased rendering
the claim prescribes (the word-title-casing transform itself maps
`high` to `High`). -/
theorem urgency_label_cex :
    displayUrgencyText "high" = "HIGH" ∧ formatCategory "high" = "High"
    ∧ displayUrgencyText "high" ≠ formatCategory "high" := by decide

/-- C8 (amended): category labels are rendered by replacing underscores
with spaces and title-casing every word — for any nonempty list of
separator-free words, formatting their underscore-joining yields their
space-joined title-casing (so `loan_applications` renders as
`Loan Applications`); urgency, however, is rendered fully upper-cased
(`high` renders as `HIGH`, not `High`). -/
theorem format_labels (ws : List (List Char)) (hne : ws ≠ [])
    (hok : ∀ w ∈ ws, ∀ c ∈ w, c ≠ '_' ∧ c ≠ ' ') :
    formatCategoryL (joinWords '_' ws) = joinWords ' ' (ws.map capWord)
    ∧ formatCategory "loan_applications" = "Loan Applications"
    ∧ displayUrgencyText "high" = "HIGH" := by
  refine ⟨?_, by decide, by decide⟩
  unfold formatCategoryL
  rw [map_usToSpace_joinWords ws fun w hw c hc => (hok w hw c hc).1]
  rw [splitSpace_joinWords ws hne fun w hw c hc => (hok w hw c hc).2]

/-- C8, witness: the amended theorem at the two-word list `a`, `bc`. -/
theorem format_labels_witness :
    formatCategoryL (joinWords '_' [['a'], ['b', 'c']]) =
      joinWords ' ' ([['a'], ['b', 'c']].map capWord) :=
  (format_labels [['a'], ['b', 'c']] (by decide) (by decide)).1

/-! ## Claim C9 -/

/-- An inline-safe character is not a star and not a line terminator. -/
theorem inlineSafe_spec (c : Char) (h : inlineSafe c = true) :
    c ≠ '*' ∧ lineTerm c = false := by
  simp only [inlineSafe, decide_eq_true_eq] at h
  constructor
  · intro hc
    exact h (by simp [hc])
  · cases hlt : lineTerm c
    · rfl
    · exact absurd (by simp [hlt]) h

/-- An inline-safe character is not a newline. -/
theorem inlineSafe_ne_newline (c : Char) (h : inlineSafe c = true) :
    c ≠ '\n' := by
  intro hc
  have := (inlineSafe_spec c h).2
  rw [hc] at this
  simp [lineTerm] at this

/-- The bold pass passes a star-free prefix through unchanged. -/
theorem replaceBold_append_starFree :
    ∀ (a t : List Char), (∀ c ∈ a, c ≠ '*') →
      replaceBold (a ++ t) = a ++ replaceBold t := by
  intro a
  induction a with
  | nil => intro t _; simp
  | cons c a' ih =>
    intro t hok
    have hc : c ≠ '*' := hok c (by simp)
    rw [List.cons_append]
    rcases ha : a' ++ t with _ | ⟨d, rest⟩
    · obtain ⟨rfl, rfl⟩ := List.append_eq_nil.mp ha
      simp [replaceBold]
    · have hih := ih t fun c' hc' => hok c' (by simp [hc'])
      rw [ha] at hih
      rw [replaceBold, if_neg (by simp [hc]), hih, List.cons_append]

/-- The bold pass is the identity on star-free input. -/
theorem replaceBold_starFree (t : List Char) (hok : ∀ c ∈ t, c ≠ '*') :
    replaceBold t = t := by
  have := replaceBold_append_starFree t [] hok
  simpa [replaceBold] using this

/-- The lazy close finder: an inline-safe run followed by `**` closes
exactly there. -/
theorem findClose_append :
    ∀ (x r : List Char), (∀ c ∈ x, inlineSafe c = true) →
      findClose (x ++ '*' :: '*' :: r) = some (x, r) := by
  intro x
  induction x with
  | nil =>
    intro r _
    rw [List.nil_append, findClose, if_pos ⟨rfl, rfl⟩]
  | cons c x' ih =>
    intro r hok
    have hc := inlineSafe_spec c (hok c (by simp))
    rw [List.cons_append]
    rcases hx : x' ++ '*' :: '*' :: r with _ | ⟨d, rest⟩
    · exact absurd hx (by simp)
    · have hih := ih r fun c' hc' => hok c' (by simp [hc'])
      rw [hx] at hih
      rw [findClose, if_neg (by simp [hc.1]), if_neg (by simp [hc.2]), hih]
      rfl

/-- A `**`-delimited inline-safe run is replaced by the strong tags. -/
theorem replaceBold_bold (x b : List Char) (hx : ∀ c ∈ x, inlineSafe c = true) :
    replaceBold ('*' :: '*' :: (x ++ '*' :: '*' :: b)) =
      strongOpen ++ x ++ strongClose ++ replaceBold b := by
  rw [replaceBold, if_pos ⟨rfl, rfl⟩]
  split
  · rename_i p hp
    rw [findClose_append x b hx] at hp
    cases hp
    simp
  · rename_i hp
    rw [findClose_append x b hx] at hp
    exact Option.noConfusion hp

/-- The newline pass distributes over append. -/
theorem replaceNewlines_append :
    ∀ (a b : List Char),
      replaceNewlines (a ++ b) = replaceNewlines a ++ replaceNewlines b := by
  intro a
  induction a with
  | nil => intro b; simp [replaceNewlines]
  | cons c a' ih =>
    intro b
    simp only [List.cons_append, replaceNewlines, List.append_eq, ih,
      List.append_assoc]

/-- The newline pass is the identity on newline-free input. -/
theorem replaceNewlines_nlFree :
    ∀ (l : List Char), (∀ c ∈ l, c ≠ '\n') → replaceNewlines l = l := by
  intro l
  induction l with
  | nil => intro _; rfl
  | cons c rest ih =>
    intro hok
    rw [replaceNewlines, if_neg (hok c (by simp)),
      ih fun c' hc' => hok c' (by simp [hc'])]
    rfl

/-- The strong tags contain no newline. -/
theorem strong_tags_nlFree :
    (∀ c ∈ strongOpen, c ≠ '\n') ∧ (∀ c ∈ strongClose, c ≠ '\n') := by decide

/-- C9: `formatMessageContent` passes every character other than the
`**` delimiters and newlines through unchanged — including `<`, `>`
and `&`, so no HTML-escaping happens — replaces each lazily-delimited
`**x**` with `<strong>x</strong>`, and each newline with `<br>`; as a
Lean function it is pure and deterministic. -/
theorem formatMessageContent_spec :
    (∀ s : String, (∀ c ∈ s.data, inlineSafe c = true) →
      formatMessageContent s = s)
    ∧ (∀ a x b : String, (∀ c ∈ a.data, inlineSafe c = true) →
        (∀ c ∈ x.data, inlineSafe c = true) →
        (∀ c ∈ b.data, inlineSafe c = true) →
        formatMessageContent (a ++ "**" ++ x ++ "**" ++ b) =
          a ++ "<strong>" ++ x ++ "</strong>" ++ b)
    ∧ (∀ a b : String, (∀ c ∈ a.data, inlineSafe c = true) →
        (∀ c ∈ b.data, inlineSafe c = true) →
        formatMessageContent (a ++ "\n" ++ b) = a ++ "<br>" ++ b) := by
  refine ⟨?_, ?_, ?_⟩
  · intro s hs
    apply String.ext
    show replaceNewlines (replaceBold s.data) = s.data
    rw [replaceBold_starFree s.data fun c hc => (inlineSafe_spec c (hs c hc)).1,
      replaceNewlines_nlFree s.data fun c hc => inlineSafe_ne_newline c (hs c hc)]
  · intro a x b ha hx hb
    apply String.ext
    have hdata : (a ++ "**" ++ x ++ "**" ++ b).data =
        a.data ++ ('*' :: '*' :: (x.data ++ '*' :: '*' :: b.data)) := by
      simp only [String.data_append, show ("**").data = ['*', '*'] from rfl,
        List.append_assoc, List.cons_append, List.nil_append]
    show replaceNewlines (replaceBold (a ++ "**" ++ x ++ "**" ++ b).data) =
      (a ++ "<strong>" ++ x ++ "</strong>" ++ b).data
    rw [hdata,
      replaceBold_append_starFree a.data _
        (fun c hc => (inlineSafe_spec c (ha c hc)).1),
      replaceBold_bold x.data b.data hx,
      replaceBold_starFree b.data fun c hc => (inlineSafe_spec c (hb c hc)).1]
    have hnl : ∀ c ∈ a.data ++ (strongOpen ++ x.data ++ strongClose ++ b.data),
        c ≠ '\n' := by
      intro c hc
      simp only [List.mem_append] at hc
      rcases hc with hc | ⟨⟨⟨hc | hc⟩ | hc⟩ | hc⟩
      · exact inlineSafe_ne_newline c (ha c hc)
      · exact strong_tags_nlFree.1 c hc
      · exact inlineSafe_ne_newline c (hx c hc)
      · exact strong_tags_nlFree.2 c hc
      · exact inlineSafe_ne_newline c (hb c hc)
    rw [replaceNewlines_nlFree _ hnl]
    simp only [String.data_append, strongOpen, strongClose, List.append_assoc]
  · intro a b ha hb
    apply String.ext
    have hdata : (a ++ "\n" ++ b).data = a.data ++ ('\n' :: b.data) := by
      simp only [String.data_append, show ("\n").data = ['\n'] from rfl,
        List.append_assoc, List.cons_append, List.nil_append]
    show replaceNewlines (replaceBold (a ++ "\n" ++ b).data) =
      (a ++ "<br>" ++ b).data
    have hstar : ∀ c ∈ a.data ++ ('\n' :: b.data), c ≠ '*' := by
      intro c hc
      simp only [List.mem_append, List.mem_cons] at hc
      rcases hc with hc | hc | hc
      · exact (inlineSafe_spec c (ha c hc)).1
      · simp [hc]
      · exact (inlineSafe_spec c (hb c hc)).1
    rw [hdata, replaceBold_starFree _ hstar, replaceNewlines_append,
      replaceNewlines_nlFree a.data fun c hc => inlineSafe_ne_newline c (ha c hc),
      show replaceNewlines ('\n' :: b.data) =
        ("<br>").data ++ replaceNewlines b.data from by rw [replaceNewlines]; rfl,
      replaceNewlines_nlFree b.data fun c hc => inlineSafe_ne_newline c (hb c hc)]
    simp [String.data_append, List.append_assoc]

/-- C9, witness: the three parts of the specification applied at
concrete strings containing the HTML-significant characters. -/
theorem formatMessageContent_spec_witness :
    formatMessageContent "a<b>&" = "a<b>&"
    ∧ formatMessageContent ("a<b>&" ++ "**" ++ "x" ++ "**" ++ " c") =
        "a<b>&" ++ "<strong>" ++ "x" ++ "</strong>" ++ " c"
    ∧ formatMessageContent ("p" ++ "\n" ++ "q") = "p" ++ "<br>" ++ "q" :=
  ⟨formatMessageContent_spec.1 "a<b>&" (by decide),
   formatMessageContent_spec.2.1 "a<b>&" "x" " c" (by decide) (by decide) (by decide),
   formatMessageContent_spec.2.2 "p" "q" (by decide) (by decide)⟩

/-! ## Claim C5 -/

/-- One `saveToRecent` list update is exactly `take 10` of the
prepended list. -/
theorem saveToRecentList_eq_take (l : List RecentDocumentEntry)
    (e : RecentDocumentEntry) : saveToRecentList l e = (e :: l).take 10 := by
  unfold saveToRecentList
  dsimp only
  split
  · rfl
  · rename_i hle
    rw [List.take_of_length_le (by omega)]

/-- Folding the list update keeps the ten most recent, most recent
first. -/
theorem foldl_saveToRecentList :
    ∀ (rs a : List RecentDocumentEntry),
      rs.foldl saveToRecentList (a.take 10) = (rs.reverse ++ a).take 10 := by
  intro rs
  induction rs with
  | nil => intro a; simp
  | cons r rs ih =>
    intro a
    rw [List.foldl_cons, saveToRecentList_eq_take]
    have hstep : (r :: a.take 10).take 10 = (r :: a).take 10 := by
      rw [List.take_succ_cons, List.take_succ_cons, List.take_take]
      rfl
    rw [hstep, ih (r :: a)]
    simp [List.append_assoc]

/-- The `recent` component of a fold of `saveToRecent` steps is the fold
of the list updates over the built entries. -/
theorem recordAll_proj :
    ∀ (rs : List (ProcessResult × String)) (st : StoreState),
      (rs.foldl (fun st pr => saveToRecent st pr.1 pr.2) st).recent =
        (rs.map fun pr => mkEntry pr.1 pr.2).foldl saveToRecentList st.recent := by
  intro rs
  induction rs with
  | nil => intro st; rfl
  | cons pr rs ih =>
    intro st
    rw [List.foldl_cons, List.map_cons, List.foldl_cons, ih]
    rfl

/-- After any nonempty sequence of records, the durable value is the
serialization of the current in-memory sequence. -/
theorem recordAll_stored :
    ∀ (rs : List (ProcessResult × String)) (st : StoreState), rs ≠ [] →
      (rs.foldl (fun st pr => saveToRecent st pr.1 pr.2) st).stored =
        some (String.mk (stringifyRecent
          (rs.foldl (fun st pr => saveToRecent st pr.1 pr.2) st).recent)) := by
  intro rs
  induction rs with
  | nil => intro st h; exact absurd rfl h
  | cons pr rs ih =>
    intro st _
    cases rs with
    | nil => rfl
    | cons pr2 rs2 =>
      rw [List.foldl_cons]
      exact ih (saveToRecent st pr.1 pr.2) (List.cons_ne_nil _ _)

/-- C5: after recording more than ten results into an empty store, the
in-memory sequence is exactly the ten most recently recorded entries,
most recent first, its length is exactly ten, and the durable store
holds the serialization of that full sequence. -/
theorem recordAll_keeps_ten (rs : List (ProcessResult × String))
    (h : 10 < rs.length) :
    (recordAll rs).recent =
      ((rs.map fun pr => mkEntry pr.1 pr.2).reverse).take 10
    ∧ (recordAll rs).recent.length = 10
    ∧ (recordAll rs).stored =
        some (String.mk (stringifyRecent (recordAll rs).recent)) := by
  have hr : (recordAll rs).recent =
      ((rs.map fun pr => mkEntry pr.1 pr.2).reverse).take 10 := by
    unfold recordAll
    rw [recordAll_proj]
    have hfold := foldl_saveToRecentList (rs.map fun pr => mkEntry pr.1 pr.2) []
    simpa using hfold
  refine ⟨hr, ?_, ?_⟩
  · rw [hr, List.length_take, List.length_reverse, List.length_map]
    omega
  · apply recordAll_stored
    intro hnil
    rw [hnil] at h
    simp at h

/-- C5, witness: recording eleven concrete results leaves exactly the
ten most recent, most recent first. -/
theorem recordAll_keeps_ten_witness :
    (recordAll [(⟨"1", "c", "u", "d", false, none, none⟩, "t1"),
      (⟨"2", "c", "u", "d", false, none, none⟩, "t2"),
      (⟨"3", "c", "u", "d", false, none, none⟩, "t3"),
      (⟨"4", "c", "u", "d", false, none, none⟩, "t4"),
      (⟨"5", "c", "u", "d", false, none, none⟩, "t5"),
      (⟨"6", "c", "u", "d", false, none, none⟩, "t6"),
      (⟨"7", "c", "u", "d", false, none, none⟩, "t7"),
      (⟨"8", "c", "u", "d", false, none, none⟩, "t8"),
      (⟨"9", "c", "u", "d", false, none, none⟩, "t9"),
      (⟨"10", "c", "u", "d", false, none, none⟩, "t10"),
      (⟨"11", "c", "u", "d", false, none, none⟩, "t11")]).recent =
    [⟨"11", "c", "u", "t11"⟩, ⟨"10", "c", "u", "t10"⟩, ⟨"9", "c", "u", "t9"⟩,
      ⟨"8", "c", "u", "t8"⟩, ⟨"7", "c", "u", "t7"⟩, ⟨"6", "c", "u", "t6"⟩,
      ⟨"5", "c", "u", "t5"⟩, ⟨"4", "c", "u", "t4"⟩, ⟨"3", "c", "u", "t3"⟩,
      ⟨"2", "c", "u", "t2"⟩] := by
  rw [(recordAll_keeps_ten _ (by decide)).1]
  decide

/-! ## Claim C10 -/

/-- The unit index is at most two on the whole accepted size range. -/
theorem fileSizeIdx_le_two (b : Nat) (h2 : b ≤ 10 * 1024 * 1024) :
    fileSizeIdx b ≤ 2 := by
  unfold fileSizeIdx
  have hlog : Nat.log 1024 (10 * 1024 * 1024) = 2 :=
    Nat.log_eq_of_pow_le_of_lt_pow (by norm_num) (by norm_num)
  calc Nat.log 1024 b ≤ Nat.log 1024 (10 * 1024 * 1024) := Nat.log_mono_right h2
    _ = 2 := hlog

/-- C10: for every byte count from 1 up to the validator's 10 MiB cap,
the unit index stays within the three-entry `sizes` array, so the
rendered string is the rounded number followed by one of `Bytes`, `KB`,
`MB` (never `undefined`); zero bytes renders as the fixed `0 Bytes`. -/
theorem formatFileSize_safe :
    (∀ b : Nat, 1 ≤ b → b ≤ 10 * 1024 * 1024 →
      fileSizeIdx b ≤ 2
      ∧ sizesArr.getD (fileSizeIdx b) "undefined" ∈ sizesArr
      ∧ formatFileSize b =
          fmtNum b (fileSizeIdx b) ++ " " ++
            sizesArr.getD (fileSizeIdx b) "undefined")
    ∧ formatFileSize 0 = "0 Bytes" := by
  refine ⟨?_, rfl⟩
  intro b h1 h2
  have hidx := fileSizeIdx_le_two b h2
  refine ⟨hidx, ?_, ?_⟩
  · set i := fileSizeIdx b with hi
    interval_cases i
    · decide
    · decide
    · decide
  · rw [formatFileSize, if_neg (by omega)]

/-- C10, witness: 2048 bytes is rendered with unit index 1 as `2 KB`. -/
theorem formatFileSize_safe_witness :
    fileSizeIdx 2048 ≤ 2 ∧ formatFileSize 2048 = "2 KB" := by
  have h := formatFileSize_safe.1 2048 (by norm_num) (by norm_num)
  refine ⟨h.1, ?_⟩
  have hidx : fileSizeIdx 2048 = 1 := by
    unfold fileSizeIdx
    exact Nat.log_eq_of_pow_le_of_lt_pow (by norm_num) (by norm_num)
  rw [h.2.2, hidx]
  decide

/-! ## Claim C7 -/

/-- The emitted hex digit of a value below 16 reads back as itself. -/
theorem hexVal_hexDigitChar_fin : ∀ n : Fin 16,
    hexVal (hexDigitChar n.val) = some n.val := by decide

/-- Same statement over `Nat`. -/
theorem hexVal_hexDigitChar (n : Nat) (h : n < 16) :
    hexVal (hexDigitChar n) = some n :=
  hexVal_hexDigitChar_fin ⟨n, h⟩

/-- Reading back an emitted `00xy` hex quad yields the encoded control
character value. -/
theorem parseHex4_escape (c : Char) (h : c.toNat < 32) (rest : List Char) :
    parseHex4 ('0' :: '0' :: hexDigitChar (c.toNat / 16) ::
        hexDigitChar (c.toNat % 16) :: rest) = some (c.toNat, rest) := by
  have h1 : c.toNat / 16 < 16 := by omega
  have h2 : c.toNat % 16 < 16 := Nat.mod_lt _ (by norm_num)
  rw [parseHex4]
  rw [show hexVal '0' = some 0 from rfl, hexVal_hexDigitChar _ h1,
    hexVal_hexDigitChar _ h2]
  simp only [Option.some_bind]
  have : ((0 * 16 + 0) * 16 + c.toNat / 16) * 16 + c.toNat % 16 = c.toNat := by
    omega
  rw [this]

/-- Unfolding step of the string-body parser at a backslash whose escape
decodes. -/
theorem psb_esc_step (u : Char) (t rest : List Char)
    (husc : parseEsc t = some (u, rest)) :
    parseStringBody ('\\' :: t) =
      (parseStringBody rest).map fun p => (u :: p.1, p.2) := by
  rw [parseStringBody, if_neg (by decide), if_pos rfl]
  split
  · rename_i ur hur
    rw [husc] at hur
    cases hur
    rfl
  · rename_i hur
    rw [husc] at hur
    exact Option.noConfusion hur

/-- Unfolding step of the string-body parser at an ordinary character. -/
theorem psb_raw_step (c : Char) (h1 : c ≠ '"') (h2 : c ≠ '\\')
    (h3 : ¬ c.toNat < 32) (t : List Char) :
    parseStringBody (c :: t) =
      (parseStringBody t).map fun p => (c :: p.1, p.2) := by
  rw [parseStringBody, if_neg h1, if_neg h2, if_neg h3]

/-- Serialize-then-parse is the identity on string bodies: parsing the
escaped characters followed by the closing quote recovers the original
characters and the remaining input. -/
theorem parseStringBody_escList :
    ∀ (s rest : List Char),
      parseStringBody (escList s ++ '"' :: rest) = some (s, rest) := by
  intro s
  induction s with
  | nil =>
    intro rest
    rw [show escList [] = [] from rfl, List.nil_append, parseStringBody,
      if_pos rfl]
  | cons c s' ih =>
    intro rest
    rw [show escList (c :: s') = escChar c ++ escList s' from rfl,
      List.append_assoc]
    by_cases h1 : c = '"'
    · subst h1
      rw [show escChar '"' = ['\\', '"'] from rfl]
      simp only [List.cons_append, List.nil_append]
      rw [psb_esc_step '"' ('"' :: (escList s' ++ '"' :: rest))
                (escList s' ++ '"' :: rest) rfl, ih rest]
      rfl
    · by_cases h2 : c = '\\'
      · subst h2
        rw [show escChar '\\' = ['\\', '\\'] from rfl]
        simp only [List.cons_append, List.nil_append]
        rw [psb_esc_step '\\' ('\\' :: (escList s' ++ '"' :: rest))
                (escList s' ++ '"' :: rest) rfl, ih rest]
        rfl
      · by_cases h3 : c = '\x08'
        · subst h3
          rw [show escChar '\x08' = ['\\', 'b'] from rfl]
          simp only [List.cons_append, List.nil_append]
          rw [psb_esc_step '\x08' ('b' :: (escList s' ++ '"' :: rest))
                (escList s' ++ '"' :: rest) rfl, ih rest]
          rfl
        · by_cases h4 : c = '\t'
          · subst h4
            rw [show escChar '\t' = ['\\', 't'] from rfl]
            simp only [List.cons_append, List.nil_append]
            rw [psb_esc_step '\t' ('t' :: (escList s' ++ '"' :: rest))
                (escList s' ++ '"' :: rest) rfl, ih rest]
            rfl
          · by_cases h5 : c = '\n'
            · subst h5
              rw [show escChar '\n' = ['\\', 'n'] from rfl]
              simp only [List.cons_append, List.nil_append]
              rw [psb_esc_step '\n' ('n' :: (escList s' ++ '"' :: rest))
                (escList s' ++ '"' :: rest) rfl, ih rest]
              rfl
            · by_cases h6 : c = '\x0c'
              · subst h6
                rw [show escChar '\x0c' = ['\\', 'f'] from rfl]
                simp only [List.cons_append, List.nil_append]
                rw [psb_esc_step '\x0c' ('f' :: (escList s' ++ '"' :: rest))
                (escList s' ++ '"' :: rest) rfl, ih rest]
                rfl
              · by_cases h7 : c = '\r'
                · subst h7
                  rw [show escChar '\r' = ['\\', 'r'] from rfl]
                  simp only [List.cons_append, List.nil_append]
                  rw [psb_esc_step '\r' ('r' :: (escList s' ++ '"' :: rest))
                (escList s' ++ '"' :: rest) rfl, ih rest]
                  rfl
                · by_cases h8 : c.toNat < 32
                  · rw [show escChar c = ['\\', 'u', '0', '0',
                        hexDigitChar (c.toNat / 16), hexDigitChar (c.toNat % 16)]
                      from by
                        unfold escChar
                        rw [if_neg h1, if_neg h2, if_neg h3, if_neg h4,
                          if_neg h5, if_neg h6, if_neg h7, if_pos h8]]
                    simp only [List.cons_append, List.nil_append]
                    have hesc2 : parseEsc ('u' :: '0' :: '0' ::
                        hexDigitChar (c.toNat / 16) :: hexDigitChar (c.toNat % 16) ::
                        (escList s' ++ '"' :: rest)) =
                        some (c, escList s' ++ '"' :: rest) := by
                      rw [parseEsc, if_pos rfl, parseHex4_escape c h8]
                      simp [Char.ofNat_toNat]
                    rw [psb_esc_step c _ _ hesc2, ih rest]
                    rfl
                  · rw [show escChar c = [c] from by
                        unfold escChar
                        rw [if_neg h1, if_neg h2, if_neg h3, if_neg h4,
                          if_neg h5, if_neg h6, if_neg h7, if_neg h8]]
                    simp only [List.cons_append, List.nil_append]
                    rw [psb_raw_step c h1 h2 h8, ih rest]
                    rfl

/-- Parsing an emitted string literal recovers the string. -/
theorem parseJString_quote (s : String) (rest : List Char) :
    parseJString (quoteJson s ++ rest) = some (s.data, rest) := by
  rw [show quoteJson s = '"' :: escList s.data ++ ['"'] from rfl]
  simp only [List.cons_append, List.append_assoc, List.nil_append]
  rw [parseJString, if_pos rfl]
  exact parseStringBody_escList s.data rest

/-- Consuming an emitted token succeeds and leaves the rest. -/
theorem stripTok_self : ∀ (t rest : List Char), stripTok t (t ++ rest) = some rest := by
  intro t
  induction t with
  | nil => intro rest; rfl
  | cons c ts ih =>
    intro rest
    rw [List.cons_append, stripTok, if_pos rfl]
    exact ih rest

/-- Parsing an emitted entry object recovers the entry. -/
theorem parseEntry_stringify (e : RecentDocumentEntry) (rest : List Char) :
    parseEntry (stringifyEntry e ++ rest) = some (e, rest) := by
  unfold parseEntry stringifyEntry
  simp only [List.append_assoc]
  rw [stripTok_self]
  simp only [Option.some_bind]
  rw [parseJString_quote]
  simp only [Option.some_bind]
  rw [stripTok_self]
  simp only [Option.some_bind]
  rw [parseJString_quote]
  simp only [Option.some_bind]
  rw [stripTok_self]
  simp only [Option.some_bind]
  rw [parseJString_quote]
  simp only [Option.some_bind]
  rw [stripTok_self]
  simp only [Option.some_bind]
  rw [parseJString_quote]
  simp only [Option.some_bind]
  rw [stripTok_self]
  simp only [Option.some_bind]

/-- Parsing an emitted nonempty item sequence recovers the entries. -/
theorem parseItems_stringify :
    ∀ es : List RecentDocumentEntry, es ≠ [] →
      parseItems (stringifyItems es ++ [']']) = some (es, [']']) := by
  intro es
  induction es with
  | nil => intro h; exact absurd rfl h
  | cons e es ih =>
    intro _
    cases es with
    | nil =>
      rw [show stringifyItems [e] = stringifyEntry e from rfl]
      rw [parseItems.eq_def]
      split
      · rename_i he
        rw [parseEntry_stringify] at he
        exact Option.noConfusion he
      · rename_i e2 r2 he
        rw [parseEntry_stringify] at he
        cases he
        rfl
    | cons e2 es2 =>
      rw [show stringifyItems (e :: e2 :: es2) =
        stringifyEntry e ++ ',' :: stringifyItems (e2 :: es2) from rfl]
      simp only [List.append_assoc, List.cons_append]
      rw [parseItems.eq_def]
      split
      · rename_i he
        rw [parseEntry_stringify] at he
        exact Option.noConfusion he
      · rename_i e3 r3 he
        rw [parseEntry_stringify] at he
        cases he
        show (match parseItems (stringifyItems (e2 :: es2) ++ [']']) with
          | some p => some (e :: p.1, p.2)
          | none => none) = some (e :: e2 :: es2, [']'])
        rw [ih (List.cons_ne_nil _ _)]

/-- An emitted entry object is never the empty character list. -/
theorem stringifyEntry_ne_nil (e : RecentDocumentEntry) :
    stringifyEntry e ≠ [] := by
  intro h
  have hlen := congrArg List.length h
  simp [stringifyEntry, tokObjOpen] at hlen

/-- Parsing an emitted sequence recovers the entries: the serializer and
the parser are mutually inverse on the store's values. -/
theorem parseRecent_stringify (es : List RecentDocumentEntry) :
    parseRecent (stringifyRecent es) = some es := by
  cases es with
  | nil => rfl
  | cons e es' =>
    rw [show stringifyRecent (e :: es') =
      '[' :: stringifyItems (e :: es') ++ [']'] from rfl]
    have hne : stringifyItems (e :: es') ++ [']'] ≠ ([']'] : List Char) := by
      intro h
      have hlen := congrArg List.length h
      rw [List.length_append] at hlen
      have : stringifyItems (e :: es') = [] := by
        cases hq : stringifyItems (e :: es') with
        | nil => rfl
        | cons a t =>
          rw [hq] at hlen
          simp at hlen
      cases es' with
      | nil => exact stringifyEntry_ne_nil e (by simpa [stringifyItems] using this)
      | cons e2 es2 =>
        rw [show stringifyItems (e :: e2 :: es2) =
          stringifyEntry e ++ ',' :: stringifyItems (e2 :: es2) from rfl] at this
        rcases List.append_eq_nil.mp this with ⟨-, h2⟩
        exact List.noConfusion h2
    show (if stringifyItems (e :: es') ++ [']'] = [']'] then some []
        else
          match parseItems (stringifyItems (e :: es') ++ [']']) with
          | some p => if p.2 = [']'] then some p.1 else none
          | none => none) = some (e :: es')
    rw [if_neg hne, parseItems_stringify (e :: es') (List.cons_ne_nil _ _)]
    show (if ([']'] : List Char) = [']'] then some (e :: es') else none) =
      some (e :: es')
    rw [if_pos rfl]

/-- C7: persisting the recent-document sequence (as `saveToRecent`
writes it) and then reloading it with `loadRecentDocuments`, with no
intervening mutation, yields exactly the persisted ordered sequence. -/
theorem persist_reload_roundtrip (st : StoreState) (r : ProcessResult)
    (now : String) :
    loadRecentDocuments (saveToRecent st r now).stored =
      Except.ok (saveToRecent st r now).recent := by
  show loadRecentDocuments (some (String.mk (stringifyRecent
    (saveToRecentList st.recent (mkEntry r now))))) =
    Except.ok (saveToRecentList st.recent (mkEntry r now))
  have hne : String.mk (stringifyRecent (saveToRecentList st.recent (mkEntry r now))) ≠
      "" := by
    intro h
    have hd := congrArg String.data h
    rw [show stringifyRecent (saveToRecentList st.recent (mkEntry r now)) =
      '[' :: stringifyItems (saveToRecentList st.recent (mkEntry r now)) ++ [']']
      from rfl] at hd
    exact List.noConfusion hd
  show (if String.mk (stringifyRecent (saveToRecentList st.recent (mkEntry r now))) = ""
      then Except.ok []
      else
        match parseRecent (String.mk (stringifyRecent
          (saveToRecentList st.recent (mkEntry r now)))).data with
        | some l => Except.ok l
        | none => Except.error ()) =
    Except.ok (saveToRecentList st.recent (mkEntry r now))
  rw [if_neg hne,
    show (String.mk (stringifyRecent (saveToRecentList st.recent (mkEntry r now)))).data =
      stringifyRecent (saveToRecentList st.recent (mkEntry r now)) from rfl,
    parseRecent_stringify]
